import Mathlib

set_option maxRecDepth 10000

/- Shallow embedding of the personal-assistant frontend core:
   - src/unnamed/part_000: email and calendar record extraction,
   - src/frontend/src/components/FormattedMessage/FormattedMessage.tsx: detectMessageType,
   - src/frontend/src/services/api.ts: the streaming response decoder (api.post).
   JS strings are modelled as List Char. -/

-- ========== character classes ==========

/-- JS whitespace as used by String.prototype.trim and regex \s
    (restricted to the ASCII whitespace characters). -/
def isJsWs (c : Char) : Bool :=
  c = ' ' || c = '\t' || c = '\n' || c = '\r' || c = Char.ofNat 11 || c = Char.ofNat 12

/-- Whitespace accepted between tokens by JSON.parse. -/
def isJsonWs (c : Char) : Bool :=
  c = ' ' || c = '\t' || c = '\n' || c = '\r'

-- ========== basic list-of-char utilities ==========

/-- Boolean prefix test on char lists. -/
def isPre : List Char → List Char → Bool
  | [], _ => true
  | _ :: _, [] => false
  | a :: as, b :: bs => if a = b then isPre as bs else false

/-- JS String.prototype.includes: does p occur contiguously in the text. -/
def isSubstr (p : List Char) : List Char → Bool
  | [] => isPre p []
  | c :: cs => isPre p (c :: cs) || isSubstr p cs

/-- Witness that the pattern provably fails against the concrete block
    before the block is exhausted (so any continuation is irrelevant). -/
def mismatches : List Char → List Char → Bool
  | [], _ => false
  | _ :: _, [] => false
  | a :: as, b :: bs => if a = b then mismatches as bs else true

/-- Left whitespace trim. -/
def ltrim (l : List Char) : List Char := l.dropWhile isJsWs

/-- Right whitespace trim. -/
def rtrim (l : List Char) : List Char := (l.reverse.dropWhile isJsWs).reverse

/-- JS String.prototype.trim. -/
def trim (l : List Char) : List Char := rtrim (ltrim l)

/-- JS String.prototype.split with separator string newline:
    the list of maximal newline-free runs. -/
def splitNl : List Char → List (List Char)
  | [] => [[]]
  | c :: cs =>
    if c = '\n' then [] :: splitNl cs
    else
      match splitNl cs with
      | s :: ss => (c :: s) :: ss
      | [] => [[c]]

/-- Core scanner for JS String.prototype.split on the regex of one or more
    digits followed by a period. `run` holds the reversed digit run currently
    pending, `cur` the reversed current segment. A maximal digit run followed
    by a period is a separator; a run followed by anything else is literal. -/
def splitNumDotGo (run cur : List Char) : List Char → List (List Char)
  | [] => [(run ++ cur).reverse]
  | c :: cs =>
    if c.isDigit then splitNumDotGo (c :: run) cur cs
    else if c = '.' && !(run.isEmpty) then cur.reverse :: splitNumDotGo [] [] cs
    else splitNumDotGo [] (c :: (run ++ cur)) cs

/-- text.split(/\d+\./) from part_000. -/
def splitNumDot (t : List Char) : List (List Char) := splitNumDotGo [] [] t

/-- Number of (leftmost, non-overlapping) matches of the digits-period
    pattern, mirroring the scan of splitNumDotGo. -/
def countNumDotGo (run : List Char) : List Char → Nat
  | [] => 0
  | c :: cs =>
    if c.isDigit then countNumDotGo (c :: run) cs
    else if c = '.' && !(run.isEmpty) then countNumDotGo [] cs + 1
    else countNumDotGo [] cs

def countNumDot (t : List Char) : Nat := countNumDotGo [] t

/-- No digit immediately followed by a period anywhere in the list. -/
def noDigitDot : List Char → Bool
  | [] => true
  | [_] => true
  | c :: d :: rest => !(c.isDigit && d = '.') && noDigitDot (d :: rest)

/-- Decimal digits of a natural number, most significant first. -/
def natDigitsCore (n : Nat) (acc : List Char) : List Char :=
  if h : n = 0 then acc
  else natDigitsCore (n / 10) (Char.ofNat (48 + n % 10) :: acc)
termination_by n
decreasing_by exact Nat.div_lt_self (Nat.pos_of_ne_zero h) (by omega)

def natDigits (n : Nat) : List Char :=
  if n = 0 then ['0'] else natDigitsCore n []

-- ========== records from part_000 ==========

structure EmailData where
  «from» : List Char
  date : List Char
  subject : List Char
  content : List Char
deriving DecidableEq, Repr

structure CalendarEvent where
  event : List Char
  location : List Char
  time : List Char
deriving DecidableEq, Repr

-- ========== regex model for the field extraction in part_000 ==========

/- Each field regex in part_000 has the shape
     label (.*?) (?= \s* - \s* nextLabel)
   with the s flag, or label (.*?)$ for the last field. Its JS semantics:
   find the leftmost start position where the literal label matches, then the
   shortest (lazy) capture after the label such that the lookahead matches at
   the capture end; if no capture works the engine retries at the next start
   position. -/

/-- The lookahead \s*-\s*nextLabel (nextLabel tested as a literal). -/
def lookSep (next : List Char) (t : List Char) : Bool :=
  match t.dropWhile isJsWs with
  | '-' :: r => isPre next (r.dropWhile isJsWs)
  | _ => false

/-- Shortest prefix of t (scanning left to right) at whose end p holds;
    returns that prefix as the lazy capture. -/
def findCapture (p : List Char → Bool) : List Char → Option (List Char)
  | [] => if p [] then some [] else none
  | c :: cs => if p (c :: cs) then some [] else (findCapture p cs).map (c :: ·)

/-- text.match of label (.*?)(?=\s*-\s*next); returns the captured group. -/
def matchField (label next : List Char) : List Char → Option (List Char)
  | [] => none
  | c :: cs =>
    if isPre label (c :: cs) then
      match findCapture (lookSep next) (List.drop label.length (c :: cs)) with
      | some cap => some cap
      | none => matchField label next cs
    else matchField label next cs

/-- text.match of label (.*?)$ with the s flag: at the first occurrence of
    the label, capture everything to the end. -/
def matchToEnd (label : List Char) : List Char → Option (List Char)
  | [] => none
  | c :: cs =>
    if isPre label (c :: cs) then some (List.drop label.length (c :: cs))
    else matchToEnd label cs

-- the literal label and lookahead strings used by part_000

def lblFrom : List Char := ("**From**: ").toList
def lblDate : List Char := ("**Date**: ").toList
def lblSubj : List Char := ("**Subject**: ").toList
def lblCont : List Char := ("**Content**: ").toList
def nxtDate : List Char := ("**Date**:").toList
def nxtSubj : List Char := ("**Subject**:").toList
def nxtCont : List Char := ("**Content**:").toList

def lblEvent : List Char := ("**Event**: ").toList
def lblLoc : List Char := ("**Location**: ").toList
def lblTime : List Char := ("**Time**: ").toList
def nxtLoc : List Char := ("**Location**:").toList
def nxtTime : List Char := ("**Time**:").toList

-- ========== parseEmailFromText (part_000 lines 29-50) ==========

def parseEmailFromText (t : List Char) : Option EmailData :=
  match matchField lblFrom nxtDate t, matchField lblDate nxtSubj t,
        matchField lblSubj nxtCont t, matchToEnd lblCont t with
  | some f, some d, some s, some c => some ⟨trim f, trim d, trim s, trim c⟩
  | _, _, _, _ => none

-- ========== parseMultipleEmails (part_000 lines 52-79) ==========

def closingPhrases : List (List Char) :=
  [("If you need more information").toList,
   ("If you need any further actions").toList,
   ("Let me know if you need").toList,
   ("Just let me know").toList,
   ("Is there anything else").toList]

/-- The closing-remark filter predicate: keep a block iff it contains none
    of the closing phrases. -/
def keepBlock (b : List Char) : Bool :=
  !(closingPhrases.any (fun p => isSubstr p b))

/-- The push of the forEach loops: append the parsed record when the block
    parses, otherwise leave the accumulator unchanged. -/
def pushSome {α β : Type} (f : α → Option β) (acc : List β) (x : α) : List β :=
  match f x with
  | some e => acc ++ [e]
  | none => acc

def parseMultipleEmails (t : List Char) : List EmailData :=
  let emailBlocks := (splitNumDot t).drop 1
  let filteredBlocks := emailBlocks.filter keepBlock
  filteredBlocks.foldl (pushSome parseEmailFromText) []

-- ========== parseCalendarEventsFromText (part_000 lines 81-105) ==========

/-- The per-block body of the forEach loop in parseCalendarEventsFromText:
    push a record only when all three field matches succeed. -/
def calBlock (b : List Char) : Option CalendarEvent :=
  match matchField lblEvent nxtLoc b, matchField lblLoc nxtTime b,
        matchToEnd lblTime b with
  | some e, some l, some tm => some ⟨trim e, trim l, trim tm⟩
  | _, _, _ => none

def parseCalendarEventsFromText (t : List Char) : List CalendarEvent :=
  ((splitNumDot t).drop 1).foldl (pushSome calBlock) []

-- ========== detectMessageType (FormattedMessage.tsx lines 143-151) ==========

inductive MessageType where
  | email : MessageType
  | calendar : MessageType
  | text : MessageType
deriving DecidableEq, Repr

def emailMark : List Char := ("[EMAIL]").toList
def evMark : List Char := ("**Event**:").toList
def locMark : List Char := ("**Location**:").toList

def detectMessageType (t : List Char) : MessageType :=
  if isSubstr emailMark t then .email
  else if isSubstr evMark t && isSubstr locMark t then .calendar
  else .text

-- ========== a JSON value model for JSON.parse in api.ts ==========

/- The decoder only ever inspects the result of JSON.parse through
   parsedData.type and parsedData.content, so a standard JSON value tree
   suffices. Numeric literals are modelled for integer syntax only (float
   syntax is rejected by the model parser); \uXXXX string escapes are
   likewise outside the model. -/

inductive JsValue where
  | str : List Char → JsValue
  | num : Int → JsValue
  | bool : Bool → JsValue
  | null : JsValue
  | obj : List (List Char × JsValue) → JsValue
  | arr : List JsValue → JsValue

def JsValue.isNull : JsValue → Bool
  | .null => true
  | _ => false

/-- The single-character JSON string escapes. -/
def unescape (c : Char) : Option Char :=
  if c = '"' then some '"'
  else if c = '\\' then some '\\'
  else if c = '/' then some '/'
  else if c = 'b' then some (Char.ofNat 8)
  else if c = 'f' then some (Char.ofNat 12)
  else if c = 'n' then some '\n'
  else if c = 'r' then some '\r'
  else if c = 't' then some '\t'
  else none

/-- Parse the body of a JSON string after the opening quote; returns the
    decoded content and the remainder after the closing quote. -/
def parseStrBody : List Char → Option (List Char × List Char)
  | [] => none
  | '"' :: cs => some ([], cs)
  | '\\' :: rest =>
    match rest with
    | [] => none
    | e :: cs =>
      match unescape e with
      | none => none
      | some ch => (parseStrBody cs).map (fun p => (ch :: p.1, p.2))
  | c :: cs => (parseStrBody cs).map (fun p => (c :: p.1, p.2))

def digitsToNat (ds : List Char) : Nat :=
  ds.foldl (fun n c => n * 10 + (c.toNat - 48)) 0

/-- Parse a run of decimal digits as a Nat (rejecting float syntax). -/
def parseNatTok (t : List Char) : Option (Nat × List Char) :=
  let ds := t.takeWhile Char.isDigit
  let r := t.dropWhile Char.isDigit
  if ds.isEmpty then none
  else
    match r with
    | '.' :: _ => none
    | 'e' :: _ => none
    | 'E' :: _ => none
    | _ => some (digitsToNat ds, r)

mutual

/-- Recursive-descent JSON value parser; fuel bounds the nesting of the
    grammar productions. -/
def parseValue : Nat → List Char → Option (JsValue × List Char)
  | 0, _ => none
  | fuel + 1, t =>
    match t.dropWhile isJsonWs with
    | '"' :: cs => (parseStrBody cs).map (fun p => (JsValue.str p.1, p.2))
    | '{' :: cs =>
      (match cs.dropWhile isJsonWs with
       | '}' :: r => some (JsValue.obj [], r)
       | _ => (parseMembers fuel cs).map (fun p => (JsValue.obj p.1, p.2)))
    | '[' :: cs =>
      (match cs.dropWhile isJsonWs with
       | ']' :: r => some (JsValue.arr [], r)
       | _ => (parseElems fuel cs).map (fun p => (JsValue.arr p.1, p.2)))
    | 't' :: 'r' :: 'u' :: 'e' :: r => some (JsValue.bool true, r)
    | 'f' :: 'a' :: 'l' :: 's' :: 'e' :: r => some (JsValue.bool false, r)
    | 'n' :: 'u' :: 'l' :: 'l' :: r => some (JsValue.null, r)
    | '-' :: cs => (parseNatTok cs).map (fun p => (JsValue.num (-(p.1 : Int)), p.2))
    | c :: cs =>
      if c.isDigit then (parseNatTok (c :: cs)).map (fun p => (JsValue.num (p.1 : Int), p.2))
      else none
    | [] => none

/-- Members of a JSON object after the opening brace (at least one). -/
def parseMembers : Nat → List Char → Option (List (List Char × JsValue) × List Char)
  | 0, _ => none
  | fuel + 1, t =>
    match t.dropWhile isJsonWs with
    | '"' :: cs =>
      (match parseStrBody cs with
       | none => none
       | some (k, r1) =>
         match r1.dropWhile isJsonWs with
         | ':' :: r2 =>
           (match parseValue fuel r2 with
            | none => none
            | some (v, r3) =>
              match r3.dropWhile isJsonWs with
              | ',' :: r4 => (parseMembers fuel r4).map (fun p => ((k, v) :: p.1, p.2))
              | '}' :: r4 => some ([(k, v)], r4)
              | _ => none)
         | _ => none)
    | _ => none

/-- Elements of a JSON array after the opening bracket (at least one). -/
def parseElems : Nat → List Char → Option (List JsValue × List Char)
  | 0, _ => none
  | fuel + 1, t =>
    match parseValue fuel t with
    | none => none
    | some (v, r1) =>
      match r1.dropWhile isJsonWs with
      | ',' :: r2 => (parseElems fuel r2).map (fun p => (v :: p.1, p.2))
      | ']' :: r2 => some ([v], r2)
      | _ => none

end

/-- JSON.parse: a complete value with only whitespace around it. -/
def jsonParse (t : List Char) : Option JsValue :=
  match parseValue (t.length + 1) t with
  | some (v, rest) => if (rest.dropWhile isJsonWs).isEmpty then some v else none
  | none => none

/-- Property lookup on a parsed value: objects yield the value of the last
    binding of the key (JSON.parse keeps the last duplicate); anything else
    yields undefined (none). null is handled separately by the caller since
    property access on null throws in JS. -/
def lookupLast : List (List Char × JsValue) → List Char → Option JsValue
  | [], _ => none
  | (k, v) :: rest, key =>
    match lookupLast rest key with
    | some w => some w
    | none => if k = key then some v else none

def getField (v : JsValue) (k : List Char) : Option JsValue :=
  match v with
  | .obj fs => lookupLast fs k
  | _ => none

def intToStr (n : Int) : List Char :=
  if n < 0 then '-' :: natDigits n.natAbs else natDigits n.natAbs

def joinComma : List (List Char) → List Char
  | [] => []
  | [s] => s
  | s :: rest => s ++ ',' :: joinComma rest

mutual

/-- JS ToString as applied by string concatenation (result += x). -/
def jsValueToStr : JsValue → List Char
  | .str s => s
  | .num n => intToStr n
  | .bool b => if b then ("true").toList else ("false").toList
  | .null => ("null").toList
  | .obj _ => ("[object Object]").toList
  | .arr xs => joinComma (jsArrElems xs)

/-- Array elements under Array.prototype.toString: null stringifies to the
    empty string inside an array. -/
def jsArrElems : List JsValue → List (List Char)
  | [] => []
  | v :: rest => (if v.isNull then [] else jsValueToStr v) :: jsArrElems rest

end

def jsConcatStr : Option JsValue → List Char
  | none => ("undefined").toList
  | some v => jsValueToStr v

-- ========== the stream decoder from api.ts (api.post, lines 24-49) ==========

def dataPfx : List Char := ("data: ").toList

def typeKey : List Char := ("type").toList
def contentKey : List Char := ("content").toList
def contentTag : List Char := ("content").toList

/-- One iteration of the inner for-loop of api.post over one split line.
    State: (result, snapshots emitted to onStream so far). A line is handled
    only when it starts with the data prefix; JSON.parse failure, and the
    TypeError thrown by property access when the parsed value is null, are
    swallowed by the try/catch. When type is the string content, result is
    extended by the JS stringification of parsedData.content (the text
    undefined when the field is absent) and the new result is emitted. -/
def processLine (st : List Char × List (List Char)) (line : List Char) :
    List Char × List (List Char) :=
  if isPre dataPfx line then
    match jsonParse (List.drop 6 line) with
    | none => st
    | some JsValue.null => st
    | some v =>
      match getField v typeKey with
      | some (JsValue.str ct) =>
        if ct = contentTag then
          let r := st.1 ++ jsConcatStr (getField v contentKey)
          (r, st.2 ++ [r])
        else st
      | _ => st
  else st

/-- The chunk loop of api.post: each chunk is split on newlines on its own
    (no carry-over buffer between chunks) and every split line is processed. -/
def runStream (chunks : List (List Char)) : List Char × List (List Char) :=
  chunks.foldl (fun st chunk => (splitNl chunk).foldl processLine st) ([], [])

-- ========== the transport guard of api.post (lines 15-22) ==========

structure FetchResponse where
  ok : Bool
  status : Nat
  body : Option (List (List Char))

def httpErrMsg (status : Nat) : List Char :=
  ("HTTP error! status: ").toList ++ natDigits status

def noReaderMsg : List Char := ("No reader available").toList

/-- api.post after the fetch resolves: a non-ok response throws the HTTP
    error, a missing body throws the no-reader error, otherwise the stream
    is decoded and the accumulated text returned. -/
def apiPost (resp : FetchResponse) : Except (List Char) (List Char) :=
  if resp.ok = false then .error (httpErrMsg resp.status)
  else
    match resp.body with
    | none => .error noReaderMsg
    | some chunks => .ok (runStream chunks).1

/-- The observer invocations (onStream calls) performed by api.post: none
    happen before the two transport guards, so a guard failure leaves the
    observer never invoked. -/
def apiPostEmissions (resp : FetchResponse) : List (List Char) :=
  if resp.ok = false then []
  else
    match resp.body with
    | none => []
    | some chunks => (runStream chunks).2

-- ========== claim-side builders (quantification domains of the claims) ==========

/-- A content fragment that needs no JSON string escaping and cannot span a
    line break: the well-formed frame contents quantified over in C1. -/
def SafeContent (s : List Char) : Prop :=
  ∀ c ∈ s, c ≠ '"' ∧ c ≠ '\\' ∧ c ≠ '\n'

/-- The JSON payload of a content frame carrying fragment s. -/
def contentJson (s : List Char) : List Char :=
  ("\x7b\"type\":\"content\",\"content\":\"").toList ++ s ++ ("\"\x7d").toList

/-- A content frame line without its newline terminator. -/
def dataLine (s : List Char) : List Char := dataPfx ++ contentJson s

/-- A full content frame line. -/
def frameLine (s : List Char) : List Char := dataLine s ++ ['\n']

/-- A field value that cannot collide with the labeled-block syntax: no
    asterisk (label delimiter), no dash (field separator sensed by the
    lookahead) and no digit-period pair (numbered-list delimiter). -/
def GoodField (v : List Char) : Prop :=
  (∀ c ∈ v, c ≠ '*' ∧ c ≠ '-') ∧ noDigitDot v = true

/-- The labeled body of one numbered email block, in the fixed field order
    of the spec example. -/
def bodyOf (b : EmailData) : List Char :=
  (" ").toList ++ lblFrom ++ b.«from» ++
  (" - ").toList ++ lblDate ++ b.date ++
  (" - ").toList ++ lblSubj ++ b.subject ++
  (" - ").toList ++ lblCont ++ b.content

/-- A well-formed input block: good fields and no closing-remark phrase in
    the rendered segment. -/
def GoodEmail (b : EmailData) : Prop :=
  GoodField b.«from» ∧ GoodField b.date ∧ GoodField b.subject ∧
  GoodField b.content ∧
  (∀ p ∈ closingPhrases, isSubstr p (bodyOf b ++ ['\n']) = false)

/-- N labeled blocks joined under a numbered-list pattern starting at k. -/
def renderFrom : Nat → List EmailData → List Char
  | _, [] => []
  | k, b :: rest => natDigits k ++ '.' :: (bodyOf b ++ '\n' :: renderFrom (k + 1) rest)

def renderEmails (bs : List EmailData) : List Char := renderFrom 1 bs

def trimmedRec (b : EmailData) : EmailData :=
  ⟨trim b.«from», trim b.date, trim b.subject, trim b.content⟩

instance decSafeContent (s : List Char) : Decidable (SafeContent s) :=
  inferInstanceAs (Decidable (∀ c ∈ s, c ≠ '"' ∧ c ≠ '\\' ∧ c ≠ '\n'))

instance decGoodField (v : List Char) : Decidable (GoodField v) :=
  inferInstanceAs (Decidable ((∀ c ∈ v, c ≠ '*' ∧ c ≠ '-') ∧ noDigitDot v = true))

instance decGoodEmail (b : EmailData) : Decidable (GoodEmail b) :=
  inferInstanceAs (Decidable (GoodField b.«from» ∧ GoodField b.date ∧
    GoodField b.subject ∧ GoodField b.content ∧
    (∀ p ∈ closingPhrases, isSubstr p (bodyOf b ++ ['\n']) = false)))

-- ========== lemmas: prefix and substring machinery ==========

theorem isPre_append (p r : List Char) : isPre p (p ++ r) = true := by
  induction p with
  | nil => rfl
  | cons c cs ih => simp [isPre, ih]

theorem isPre_mono (p q t : List Char) (h : isPre (p ++ q) t = true) :
    isPre p t = true := by
  induction p generalizing t with
  | nil => rfl
  | cons c cs ih =>
    cases t with
    | nil => simp [isPre] at h
    | cons b bs =>
      simp only [List.cons_append, isPre] at h ⊢
      by_cases hc : c = b
      · simpa [hc] using ih bs (by simpa [hc] using h)
      · simp [hc] at h

theorem isPre_extend (p t x : List Char) (h : isPre p t = true) :
    isPre p (t ++ x) = true := by
  induction p generalizing t with
  | nil => rfl
  | cons c cs ih =>
    cases t with
    | nil => simp [isPre] at h
    | cons b bs =>
      simp only [isPre] at h
      by_cases hc : c = b
      · simpa [List.cons_append, isPre, hc] using ih bs (by simpa [hc] using h)
      · simp [hc] at h

theorem isSubstr_of_isPre (p t : List Char) (h : isPre p t = true) :
    isSubstr p t = true := by
  cases t with
  | nil => simpa [isSubstr] using h
  | cons c cs => simp [isSubstr, h]

theorem isSubstr_cons (p t : List Char) (c : Char) (h : isSubstr p t = true) :
    isSubstr p (c :: t) = true := by
  simp [isSubstr, h]

theorem isSubstr_append_right (p a x : List Char) (h : isSubstr p x = true) :
    isSubstr p (a ++ x) = true := by
  induction a with
  | nil => simpa using h
  | cons c cs ih => exact isSubstr_cons _ _ _ ih

theorem isSubstr_append_left (p a x : List Char) (h : isSubstr p a = true) :
    isSubstr p (a ++ x) = true := by
  induction a with
  | nil =>
    have hp : isPre p [] = true := by simpa [isSubstr] using h
    cases p with
    | nil => exact isSubstr_of_isPre _ _ rfl
    | cons q qs => simp [isPre] at hp
  | cons c cs ih =>
    simp only [isSubstr, Bool.or_eq_true] at h
    rcases h with h | h
    · exact isSubstr_of_isPre _ _ (isPre_extend _ _ _ h)
    · exact isSubstr_cons _ _ _ (ih h)

theorem isSubstr_mono_pat (p q t : List Char) (h : isSubstr (p ++ q) t = true) :
    isSubstr p t = true := by
  induction t with
  | nil =>
    have := isPre_mono p q [] (by simpa [isSubstr] using h)
    simpa [isSubstr] using this
  | cons c cs ih =>
    simp only [isSubstr, Bool.or_eq_true] at h ⊢
    rcases h with h | h
    · exact Or.inl (isPre_mono _ _ _ h)
    · exact Or.inr (ih h)

-- ========== lemmas: field-regex scanning ==========

theorem matchField_cons_skip (lbl nxt : List Char) (c : Char) (cs : List Char)
    (h : isPre lbl (c :: cs) = false) :
    matchField lbl nxt (c :: cs) = matchField lbl nxt cs := by
  simp [matchField, h]

theorem matchToEnd_cons_skip (lbl : List Char) (c : Char) (cs : List Char)
    (h : isPre lbl (c :: cs) = false) :
    matchToEnd lbl (c :: cs) = matchToEnd lbl cs := by
  simp [matchToEnd, h]

theorem mismatches_isPre_false (lbl blk : List Char)
    (h : mismatches lbl blk = true) (rest : List Char) :
    isPre lbl (blk ++ rest) = false := by
  induction lbl generalizing blk with
  | nil => simp [mismatches] at h
  | cons a as ih =>
    cases blk with
    | nil => simp [mismatches] at h
    | cons b bs =>
      simp only [mismatches] at h
      by_cases hab : a = b
      · simp only [List.cons_append, isPre, hab, if_pos rfl]
        exact ih bs (by simpa [hab] using h)
      · simp [List.cons_append, isPre, hab]

theorem matchField_skip_block (lbl nxt blk rest : List Char)
    (h : ∀ k, k < blk.length → mismatches lbl (blk.drop k) = true) :
    matchField lbl nxt (blk ++ rest) = matchField lbl nxt rest := by
  induction blk with
  | nil => rfl
  | cons c cs ih =>
    have h0 : mismatches lbl (c :: cs) = true := h 0 (by simp)
    have hp : isPre lbl (c :: (cs ++ rest)) = false := by
      simpa using mismatches_isPre_false lbl (c :: cs) h0 rest
    rw [List.cons_append, matchField_cons_skip lbl nxt c (cs ++ rest) hp]
    exact ih (fun k hk => by
      have := h (k + 1) (by simpa using Nat.succ_lt_succ hk)
      simpa using this)

theorem matchToEnd_skip_block (lbl blk rest : List Char)
    (h : ∀ k, k < blk.length → mismatches lbl (blk.drop k) = true) :
    matchToEnd lbl (blk ++ rest) = matchToEnd lbl rest := by
  induction blk with
  | nil => rfl
  | cons c cs ih =>
    have h0 : mismatches lbl (c :: cs) = true := h 0 (by simp)
    have hp : isPre lbl (c :: (cs ++ rest)) = false := by
      simpa using mismatches_isPre_false lbl (c :: cs) h0 rest
    rw [List.cons_append, matchToEnd_cons_skip lbl c (cs ++ rest) hp]
    exact ih (fun k hk => by
      have := h (k + 1) (by simpa using Nat.succ_lt_succ hk)
      simpa using this)

theorem matchField_skip_chars (a : Char) (lbl' nxt mid rest : List Char)
    (hm : ∀ c ∈ mid, c ≠ a) :
    matchField (a :: lbl') nxt (mid ++ rest) = matchField (a :: lbl') nxt rest := by
  induction mid with
  | nil => rfl
  | cons c cs ih =>
    have hca : ¬ a = c := fun h => (hm c (by simp)) h.symm
    have hp : isPre (a :: lbl') (c :: (cs ++ rest)) = false := by
      simp [isPre, hca]
    rw [List.cons_append, matchField_cons_skip _ _ _ _ hp]
    exact ih (fun x hx => hm x (by simp [hx]))

theorem matchToEnd_skip_chars (a : Char) (lbl' mid rest : List Char)
    (hm : ∀ c ∈ mid, c ≠ a) :
    matchToEnd (a :: lbl') (mid ++ rest) = matchToEnd (a :: lbl') rest := by
  induction mid with
  | nil => rfl
  | cons c cs ih =>
    have hca : ¬ a = c := fun h => (hm c (by simp)) h.symm
    have hp : isPre (a :: lbl') (c :: (cs ++ rest)) = false := by
      simp [isPre, hca]
    rw [List.cons_append, matchToEnd_cons_skip _ _ _ hp]
    exact ih (fun x hx => hm x (by simp [hx]))

theorem matchField_found (a : Char) (lbl' nxt rest cap : List Char)
    (hfc : findCapture (lookSep nxt) rest = some cap) :
    matchField (a :: lbl') nxt ((a :: lbl') ++ rest) = some cap := by
  have hp : isPre (a :: lbl') ((a :: lbl') ++ rest) = true := isPre_append _ _
  have hd : List.drop (a :: lbl').length ((a :: lbl') ++ rest) = rest :=
    List.drop_left _ _
  rw [List.cons_append] at hp hd
  simp only [matchField, List.append_eq, hp, if_true, hd, hfc]

theorem matchToEnd_found (a : Char) (lbl' rest : List Char) :
    matchToEnd (a :: lbl') ((a :: lbl') ++ rest) = some rest := by
  have hp : isPre (a :: lbl') ((a :: lbl') ++ rest) = true := isPre_append _ _
  have hd : List.drop (a :: lbl').length ((a :: lbl') ++ rest) = rest :=
    List.drop_left _ _
  rw [List.cons_append] at hp hd
  simp only [matchToEnd, List.append_eq, hp, if_true, hd]

-- ========== lemmas: whitespace, dropWhile and trimming ==========

theorem dropWhile_all (p : Char → Bool) (w : List Char)
    (h : ∀ c ∈ w, p c = true) : w.dropWhile p = [] :=
  List.dropWhile_eq_nil_iff.mpr h

theorem dropWhile_append_all (p : Char → Bool) (w z : List Char)
    (h : ∀ c ∈ w, p c = true) :
    (w ++ z).dropWhile p = z.dropWhile p := by
  induction w with
  | nil => rfl
  | cons c cs ih =>
    have hc : p c = true := h c (by simp)
    simpa [List.dropWhile, hc] using ih (fun x hx => h x (by simp [hx]))

theorem dropWhile_append_stop (p : Char → Bool) (f y : List Char)
    (h : ∃ c ∈ f, p c = false) :
    (f ++ y).dropWhile p = f.dropWhile p ++ y := by
  induction f with
  | nil => rcases h with ⟨c, hc, _⟩; simp at hc
  | cons c cs ih =>
    by_cases hc : p c = true
    · have hcs : ∃ x ∈ cs, p x = false := by
        rcases h with ⟨x, hx, hpx⟩
        rcases List.mem_cons.mp hx with rfl | hx'
        · rw [hc] at hpx; cases hpx
        · exact ⟨x, hx', hpx⟩
      simpa [List.dropWhile, hc] using ih hcs
    · have hc' : p c = false := by
        cases hpc : p c
        · rfl
        · exact absurd hpc hc
      simp [List.dropWhile, hc']

theorem dropWhile_head_mem (p : Char → Bool) (f : List Char) :
    (∃ x ∈ f, p x = false) →
    ∃ c t, f.dropWhile p = c :: t ∧ c ∈ f ∧ p c = false := by
  induction f with
  | nil => rintro ⟨c, hc, _⟩; simp at hc
  | cons c cs ih =>
    intro h
    by_cases hc : p c = true
    · have hcs : ∃ x ∈ cs, p x = false := by
        rcases h with ⟨x, hx, hpx⟩
        rcases List.mem_cons.mp hx with rfl | hx'
        · rw [hc] at hpx; cases hpx
        · exact ⟨x, hx', hpx⟩
      rcases ih hcs with ⟨a, t, ht, ha, hpa⟩
      exact ⟨a, t, by simpa [List.dropWhile, hc] using ht, by simp [ha], hpa⟩
    · have hc' : p c = false := by
        cases hpc : p c
        · rfl
        · exact absurd hpc hc
      exact ⟨c, cs, by simp [List.dropWhile, hc'], by simp, hc'⟩

theorem rtrim_nil : rtrim [] = [] := rfl

theorem rtrim_all_ws (f : List Char) (h : ∀ c ∈ f, isJsWs c = true) :
    rtrim f = [] := by
  unfold rtrim
  rw [dropWhile_all isJsWs f.reverse (fun c hc => h c (List.mem_reverse.mp hc))]
  rfl

theorem rtrim_cons (c : Char) (f : List Char)
    (h : isJsWs c = false ∨ ∃ x ∈ f, isJsWs x = false) :
    rtrim (c :: f) = c :: rtrim f := by
  unfold rtrim
  rcases Classical.em (∃ x ∈ f, isJsWs x = false) with hf | hf
  · have : (f.reverse ++ [c]).dropWhile isJsWs = f.reverse.dropWhile isJsWs ++ [c] := by
      refine dropWhile_append_stop isJsWs f.reverse [c] ?_
      rcases hf with ⟨x, hx, hpx⟩
      exact ⟨x, List.mem_reverse.mpr hx, hpx⟩
    simp [List.reverse_cons, this]
  · have hall : ∀ x ∈ f, isJsWs x = true := by
      intro x hx
      cases hpx : isJsWs x
      · exact absurd ⟨x, hx, hpx⟩ hf
      · rfl
    have hc : isJsWs c = false := by
      rcases h with h | h
      · exact h
      · exact absurd h hf
    have h1 : (f.reverse ++ [c]).dropWhile isJsWs = [c] := by
      rw [dropWhile_append_all isJsWs f.reverse [c]
        (fun x hx => hall x (List.mem_reverse.mp hx))]
      simp [List.dropWhile, hc]
    have h2 : f.reverse.dropWhile isJsWs = [] :=
      dropWhile_all isJsWs f.reverse (fun x hx => hall x (List.mem_reverse.mp hx))
    simp [List.reverse_cons, h1, h2]

theorem length_dropWhile_le (p : Char → Bool) (l : List Char) :
    (l.dropWhile p).length ≤ l.length := by
  induction l with
  | nil => simp
  | cons c cs ih =>
    by_cases hc : p c = true
    · rw [List.dropWhile_cons_of_pos hc]
      exact Nat.le_trans ih (by simp)
    · rw [List.dropWhile_cons_of_neg (by simpa using hc)]

theorem dropWhile_eq_cons_head (p : Char → Bool) (x : List Char) (c : Char)
    (t : List Char) (h : x.dropWhile p = c :: t) : p c = false := by
  induction x with
  | nil => simp [List.dropWhile] at h
  | cons a as ih =>
    by_cases ha : p a = true
    · rw [List.dropWhile_cons_of_pos ha] at h
      exact ih h
    · rw [List.dropWhile_cons_of_neg (by simpa using ha)] at h
      injection h with h1 h2
      subst h1
      cases hpa : p a
      · rfl
      · exact absurd hpa ha

theorem rtrim_decomp (f : List Char) :
    ∃ w, f = rtrim f ++ w ∧ ∀ c ∈ w, isJsWs c = true := by
  refine ⟨(f.reverse.takeWhile isJsWs).reverse, ?_, ?_⟩
  · calc f = f.reverse.reverse := (List.reverse_reverse f).symm
    _ = (f.reverse.takeWhile isJsWs ++ f.reverse.dropWhile isJsWs).reverse := by
        rw [List.takeWhile_append_dropWhile]
    _ = (f.reverse.dropWhile isJsWs).reverse ++ (f.reverse.takeWhile isJsWs).reverse := by
        rw [List.reverse_append]
    _ = rtrim f ++ (f.reverse.takeWhile isJsWs).reverse := rfl
  · intro c hc
    exact List.mem_takeWhile_imp (List.mem_reverse.mp hc)

theorem rtrim_append_ws (y w : List Char) (h : ∀ c ∈ w, isJsWs c = true) :
    rtrim (y ++ w) = rtrim y := by
  unfold rtrim
  rw [List.reverse_append,
    dropWhile_append_all isJsWs w.reverse y.reverse
      (fun c hc => h c (List.mem_reverse.mp hc))]

theorem ltrim_nil : ltrim [] = [] := rfl

theorem trim_append_ws (x w : List Char) (h : ∀ c ∈ w, isJsWs c = true) :
    trim (x ++ w) = trim x := by
  unfold trim ltrim
  rcases Classical.em (∃ c ∈ x, isJsWs c = false) with hx | hx
  · rw [dropWhile_append_stop isJsWs x w hx, rtrim_append_ws _ _ h]
  · have hallx : ∀ c ∈ x, isJsWs c = true := by
      intro c hc
      cases hpc : isJsWs c
      · exact absurd ⟨c, hc, hpc⟩ hx
      · rfl
    rw [dropWhile_append_all isJsWs x w hallx, dropWhile_all isJsWs x hallx,
      dropWhile_all isJsWs w h]

theorem trim_rtrim (f : List Char) : trim (rtrim f) = trim f := by
  rcases rtrim_decomp f with ⟨w, hw, hws⟩
  conv_rhs => rw [hw]
  rw [trim_append_ws _ _ hws]

theorem dropWhile_idem (p : Char → Bool) (l : List Char) :
    (l.dropWhile p).dropWhile p = l.dropWhile p := by
  induction l with
  | nil => rfl
  | cons c cs ih =>
    by_cases hc : p c = true
    · simpa [List.dropWhile, hc] using ih
    · have hc' : p c = false := by
        cases hpc : p c
        · rfl
        · exact absurd hpc hc
      simp [List.dropWhile, hc']

theorem rtrim_idem (z : List Char) : rtrim (rtrim z) = rtrim z := by
  unfold rtrim
  simp [dropWhile_idem]

theorem ltrim_rtrim_ltrim (x : List Char) :
    ltrim (rtrim (ltrim x)) = rtrim (ltrim x) := by
  cases hy : rtrim (ltrim x) with
  | nil => rfl
  | cons c t =>
    obtain ⟨w, hw, hws⟩ := rtrim_decomp (ltrim x)
    rw [hy] at hw
    have hc : isJsWs c = false := by
      have hx2 : x.dropWhile isJsWs = c :: (t ++ w) := by simpa [ltrim] using hw
      exact dropWhile_eq_cons_head isJsWs x c (t ++ w) hx2
    show (c :: t).dropWhile isJsWs = c :: t
    rw [List.dropWhile_cons_of_neg (by simp [hc])]

theorem trim_idem (x : List Char) : trim (trim x) = trim x := by
  show rtrim (ltrim (rtrim (ltrim x))) = rtrim (ltrim x)
  rw [ltrim_rtrim_ltrim, rtrim_idem]

-- ========== lemmas: the lazy capture against the field separator ==========

theorem lookSep_true (nxt t r : List Char)
    (h : t.dropWhile isJsWs = '-' :: r)
    (hl : isPre nxt (r.dropWhile isJsWs) = true) :
    lookSep nxt t = true := by
  unfold lookSep
  rw [h]
  split
  · next r' heq =>
    injection heq with e1 e2
    subst e2
    exact hl
  · next hne => exact absurd rfl (hne r)

theorem lookSep_false (nxt t : List Char) (c : Char) (r : List Char)
    (h : t.dropWhile isJsWs = c :: r) (hc : c ≠ '-') :
    lookSep nxt t = false := by
  unfold lookSep
  rw [h]
  split
  · next r' heq =>
    injection heq with e1 e2
    exact absurd e1 hc
  · rfl

theorem findCapture_sep (nxt f rest : List Char)
    (hd : ∀ c ∈ f, c ≠ '-')
    (hl : isPre nxt (rest.dropWhile isJsWs) = true) :
    findCapture (lookSep nxt) (f ++ ' ' :: '-' :: ' ' :: rest) = some (rtrim f) := by
  induction f with
  | nil =>
    have hsep : lookSep nxt (' ' :: '-' :: ' ' :: rest) = true := by
      refine lookSep_true nxt _ (' ' :: rest) ?_ ?_
      · rw [List.dropWhile_cons_of_pos (by decide),
          List.dropWhile_cons_of_neg (by decide)]
      · rw [List.dropWhile_cons_of_pos (by decide)]
        exact hl
    simp [findCapture, hsep, rtrim_nil]
  | cons c f' ih =>
    have ih' := ih (fun x hx => hd x (by simp [hx]))
    by_cases hcw : isJsWs c = true
    · by_cases hall : ∀ x ∈ f', isJsWs x = true
      · have hws : ∀ x ∈ (c :: f'), isJsWs x = true := by
          intro x hx
          rcases List.mem_cons.mp hx with rfl | hx'
          · exact hcw
          · exact hall x hx'
        have hsep : lookSep nxt ((c :: f') ++ ' ' :: '-' :: ' ' :: rest) = true := by
          refine lookSep_true nxt _ (' ' :: rest) ?_ ?_
          · rw [dropWhile_append_all isJsWs (c :: f') _ hws,
              List.dropWhile_cons_of_pos (by decide),
              List.dropWhile_cons_of_neg (by decide)]
          · rw [List.dropWhile_cons_of_pos (by decide)]
            exact hl
        rw [List.cons_append]
        rw [List.cons_append] at hsep
        simp [findCapture, hsep, rtrim_all_ws (c :: f') hws]
      · have hex : ∃ x ∈ f', isJsWs x = false := by
          push_neg at hall
          rcases hall with ⟨x, hmem, hnw⟩
          cases hpx : isJsWs x
          · exact ⟨x, hmem, hpx⟩
          · exact absurd hpx hnw
        obtain ⟨a, t', ht', ha, haw⟩ := dropWhile_head_mem isJsWs f' hex
        have hfalse : lookSep nxt ((c :: f') ++ ' ' :: '-' :: ' ' :: rest) = false := by
          refine lookSep_false nxt _ a (t' ++ ' ' :: '-' :: ' ' :: rest) ?_
            (hd a (by simp [ha]))
          rw [List.cons_append, List.dropWhile_cons_of_pos hcw,
            dropWhile_append_stop isJsWs f' _ hex, ht', List.cons_append]
        rw [List.cons_append]
        rw [List.cons_append] at hfalse
        rw [show findCapture (lookSep nxt) (c :: (f' ++ ' ' :: '-' :: ' ' :: rest)) =
            if lookSep nxt (c :: (f' ++ ' ' :: '-' :: ' ' :: rest)) then some []
            else (findCapture (lookSep nxt) (f' ++ ' ' :: '-' :: ' ' :: rest)).map (c :: ·)
          from rfl, hfalse]
        simp only [Bool.false_eq_true, if_false, ih', Option.map_some']
        rw [rtrim_cons c f' (Or.inr hex)]
    · have hcw' : isJsWs c = false := by
        cases hpc : isJsWs c
        · rfl
        · exact absurd hpc hcw
      have hfalse : lookSep nxt ((c :: f') ++ ' ' :: '-' :: ' ' :: rest) = false := by
        refine lookSep_false nxt _ c (f' ++ ' ' :: '-' :: ' ' :: rest) ?_
          (hd c (by simp))
        rw [List.cons_append, List.dropWhile_cons_of_neg (by simp [hcw'])]
      rw [List.cons_append]
      rw [List.cons_append] at hfalse
      rw [show findCapture (lookSep nxt) (c :: (f' ++ ' ' :: '-' :: ' ' :: rest)) =
          if lookSep nxt (c :: (f' ++ ' ' :: '-' :: ' ' :: rest)) then some []
          else (findCapture (lookSep nxt) (f' ++ ' ' :: '-' :: ' ' :: rest)).map (c :: ·)
        from rfl, hfalse]
      simp only [Bool.false_eq_true, if_false, ih', Option.map_some']
      rw [rtrim_cons c f' (Or.inl hcw')]

-- ========== lemmas: locating each label inside a rendered block ==========

theorem bodyOf_eq (b : EmailData) :
    bodyOf b =
      [' '] ++ (lblFrom ++ (b.«from» ++ ([' ', '-', ' '] ++ (lblDate ++ (b.date ++
        ([' ', '-', ' '] ++ (lblSubj ++ (b.subject ++
          ([' ', '-', ' '] ++ (lblCont ++ b.content)))))))))) := by
  simp only [bodyOf, show (" ").toList = ([' '] : List Char) from by decide,
    show (" - ").toList = ([' ', '-', ' '] : List Char) from by decide,
    List.append_assoc]

theorem lookahead_ready_date (Z : List Char) :
    isPre nxtDate ((lblDate ++ Z).dropWhile isJsWs) = true := by
  rw [show lblDate = '*' :: (("*Date**: ").toList) from by decide,
    List.cons_append, List.dropWhile_cons_of_neg (by decide),
    ← List.cons_append,
    show ('*' :: (("*Date**: ").toList) : List Char) = nxtDate ++ [' '] from by decide,
    List.append_assoc]
  exact isPre_append nxtDate ([' '] ++ Z)

theorem lookahead_ready_subj (Z : List Char) :
    isPre nxtSubj ((lblSubj ++ Z).dropWhile isJsWs) = true := by
  rw [show lblSubj = '*' :: (("*Subject**: ").toList) from by decide,
    List.cons_append, List.dropWhile_cons_of_neg (by decide),
    ← List.cons_append,
    show ('*' :: (("*Subject**: ").toList) : List Char) = nxtSubj ++ [' '] from by decide,
    List.append_assoc]
  exact isPre_append nxtSubj ([' '] ++ Z)

theorem lookahead_ready_cont (Z : List Char) :
    isPre nxtCont ((lblCont ++ Z).dropWhile isJsWs) = true := by
  rw [show lblCont = '*' :: (("*Content**: ").toList) from by decide,
    List.cons_append, List.dropWhile_cons_of_neg (by decide),
    ← List.cons_append,
    show ('*' :: (("*Content**: ").toList) : List Char) = nxtCont ++ [' '] from by decide,
    List.append_assoc]
  exact isPre_append nxtCont ([' '] ++ Z)

theorem skipF_sp (rest : List Char) :
    matchField lblFrom nxtDate ([' '] ++ rest) = matchField lblFrom nxtDate rest :=
  matchField_skip_block lblFrom nxtDate [' '] rest (by decide)

theorem foundFrom (rest cap : List Char)
    (hfc : findCapture (lookSep nxtDate) rest = some cap) :
    matchField lblFrom nxtDate (lblFrom ++ rest) = some cap := by
  rw [show lblFrom = '*' :: (("*From**: ").toList) from by decide]
  exact matchField_found '*' (("*From**: ").toList) nxtDate rest cap hfc

theorem skipD_sp (rest : List Char) :
    matchField lblDate nxtSubj ([' '] ++ rest) = matchField lblDate nxtSubj rest :=
  matchField_skip_block lblDate nxtSubj [' '] rest (by decide)

theorem skipD_from (rest : List Char) :
    matchField lblDate nxtSubj (lblFrom ++ rest) = matchField lblDate nxtSubj rest :=
  matchField_skip_block lblDate nxtSubj lblFrom rest (by decide)

theorem skipD_dash (rest : List Char) :
    matchField lblDate nxtSubj ([' ', '-', ' '] ++ rest) = matchField lblDate nxtSubj rest :=
  matchField_skip_block lblDate nxtSubj [' ', '-', ' '] rest (by decide)

theorem skipD_field (mid rest : List Char) (hm : ∀ c ∈ mid, c ≠ '*') :
    matchField lblDate nxtSubj (mid ++ rest) = matchField lblDate nxtSubj rest := by
  rw [show lblDate = '*' :: (("*Date**: ").toList) from by decide]
  exact matchField_skip_chars '*' (("*Date**: ").toList) nxtSubj mid rest hm

theorem foundDate (rest cap : List Char)
    (hfc : findCapture (lookSep nxtSubj) rest = some cap) :
    matchField lblDate nxtSubj (lblDate ++ rest) = some cap := by
  rw [show lblDate = '*' :: (("*Date**: ").toList) from by decide]
  exact matchField_found '*' (("*Date**: ").toList) nxtSubj rest cap hfc

theorem skipS_sp (rest : List Char) :
    matchField lblSubj nxtCont ([' '] ++ rest) = matchField lblSubj nxtCont rest :=
  matchField_skip_block lblSubj nxtCont [' '] rest (by decide)

theorem skipS_from (rest : List Char) :
    matchField lblSubj nxtCont (lblFrom ++ rest) = matchField lblSubj nxtCont rest :=
  matchField_skip_block lblSubj nxtCont lblFrom rest (by decide)

theorem skipS_dash (rest : List Char) :
    matchField lblSubj nxtCont ([' ', '-', ' '] ++ rest) = matchField lblSubj nxtCont rest :=
  matchField_skip_block lblSubj nxtCont [' ', '-', ' '] rest (by decide)

theorem skipS_date (rest : List Char) :
    matchField lblSubj nxtCont (lblDate ++ rest) = matchField lblSubj nxtCont rest :=
  matchField_skip_block lblSubj nxtCont lblDate rest (by decide)

theorem skipS_field (mid rest : List Char) (hm : ∀ c ∈ mid, c ≠ '*') :
    matchField lblSubj nxtCont (mid ++ rest) = matchField lblSubj nxtCont rest := by
  rw [show lblSubj = '*' :: (("*Subject**: ").toList) from by decide]
  exact matchField_skip_chars '*' (("*Subject**: ").toList) nxtCont mid rest hm

theorem foundSubj (rest cap : List Char)
    (hfc : findCapture (lookSep nxtCont) rest = some cap) :
    matchField lblSubj nxtCont (lblSubj ++ rest) = some cap := by
  rw [show lblSubj = '*' :: (("*Subject**: ").toList) from by decide]
  exact matchField_found '*' (("*Subject**: ").toList) nxtCont rest cap hfc

theorem skipC_sp (rest : List Char) :
    matchToEnd lblCont ([' '] ++ rest) = matchToEnd lblCont rest :=
  matchToEnd_skip_block lblCont [' '] rest (by decide)

theorem skipC_from (rest : List Char) :
    matchToEnd lblCont (lblFrom ++ rest) = matchToEnd lblCont rest :=
  matchToEnd_skip_block lblCont lblFrom rest (by decide)

theorem skipC_dash (rest : List Char) :
    matchToEnd lblCont ([' ', '-', ' '] ++ rest) = matchToEnd lblCont rest :=
  matchToEnd_skip_block lblCont [' ', '-', ' '] rest (by decide)

theorem skipC_date (rest : List Char) :
    matchToEnd lblCont (lblDate ++ rest) = matchToEnd lblCont rest :=
  matchToEnd_skip_block lblCont lblDate rest (by decide)

theorem skipC_subj (rest : List Char) :
    matchToEnd lblCont (lblSubj ++ rest) = matchToEnd lblCont rest :=
  matchToEnd_skip_block lblCont lblSubj rest (by decide)

theorem skipC_field (mid rest : List Char) (hm : ∀ c ∈ mid, c ≠ '*') :
    matchToEnd lblCont (mid ++ rest) = matchToEnd lblCont rest := by
  rw [show lblCont = '*' :: (("*Content**: ").toList) from by decide]
  exact matchToEnd_skip_chars '*' (("*Content**: ").toList) mid rest hm

theorem foundCont (rest : List Char) :
    matchToEnd lblCont (lblCont ++ rest) = some rest := by
  rw [show lblCont = '*' :: (("*Content**: ").toList) from by decide]
  exact matchToEnd_found '*' (("*Content**: ").toList) rest

-- ========== the rendered-block extraction lemma ==========

theorem parseEmail_seg (b : EmailData) (sfx : List Char)
    (hf : GoodField b.«from») (hd : GoodField b.date) (hs : GoodField b.subject)
    (hsfx : ∀ c ∈ sfx, isJsWs c = true) :
    parseEmailFromText (bodyOf b ++ sfx) = some (trimmedRec b) := by
  have hfstar : ∀ c ∈ b.«from», c ≠ '*' := fun c hc => (hf.1 c hc).1
  have hfdash : ∀ c ∈ b.«from», c ≠ '-' := fun c hc => (hf.1 c hc).2
  have hdstar : ∀ c ∈ b.date, c ≠ '*' := fun c hc => (hd.1 c hc).1
  have hddash : ∀ c ∈ b.date, c ≠ '-' := fun c hc => (hd.1 c hc).2
  have hsstar : ∀ c ∈ b.subject, c ≠ '*' := fun c hc => (hs.1 c hc).1
  have hsdash : ∀ c ∈ b.subject, c ≠ '-' := fun c hc => (hs.1 c hc).2
  have h1 : matchField lblFrom nxtDate (bodyOf b ++ sfx) = some (rtrim b.«from») := by
    rw [bodyOf_eq]
    simp only [List.append_assoc]
    rw [skipF_sp]
    exact foundFrom _ _ (findCapture_sep nxtDate b.«from» _ hfdash
      (lookahead_ready_date _))
  have h2 : matchField lblDate nxtSubj (bodyOf b ++ sfx) = some (rtrim b.date) := by
    rw [bodyOf_eq]
    simp only [List.append_assoc]
    rw [skipD_sp, skipD_from, skipD_field _ _ hfstar, skipD_dash]
    exact foundDate _ _ (findCapture_sep nxtSubj b.date _ hddash
      (lookahead_ready_subj _))
  have h3 : matchField lblSubj nxtCont (bodyOf b ++ sfx) = some (rtrim b.subject) := by
    rw [bodyOf_eq]
    simp only [List.append_assoc]
    rw [skipS_sp, skipS_from, skipS_field _ _ hfstar, skipS_dash, skipS_date,
      skipS_field _ _ hdstar, skipS_dash]
    exact foundSubj _ _ (findCapture_sep nxtCont b.subject _ hsdash
      (lookahead_ready_cont _))
  have h4 : matchToEnd lblCont (bodyOf b ++ sfx) = some (b.content ++ sfx) := by
    rw [bodyOf_eq]
    simp only [List.append_assoc]
    rw [skipC_sp, skipC_from, skipC_field _ _ hfstar, skipC_dash, skipC_date,
      skipC_field _ _ hdstar, skipC_dash, skipC_subj, skipC_field _ _ hsstar,
      skipC_dash]
    exact foundCont _
  unfold parseEmailFromText
  rw [h1, h2, h3, h4]
  simp only [trimmedRec, trim_rtrim, trim_append_ws _ _ hsfx]

-- ========== lemmas: the digits-period splitter ==========

theorem noDigitDot_suffix (u v : List Char) (h : noDigitDot (u ++ v) = true) :
    noDigitDot v = true := by
  induction u with
  | nil => exact h
  | cons c u' ih =>
    apply ih
    cases hu : u' ++ v with
    | nil => rfl
    | cons d rest =>
      rw [List.cons_append, hu] at h
      simp only [noDigitDot, Bool.and_eq_true] at h
      exact h.2

theorem noDigitDot_no_sep (u v : List Char) (x : Char)
    (h : noDigitDot (u ++ x :: '.' :: v) = true) : x.isDigit = false := by
  have h2 : noDigitDot (x :: '.' :: v) = true := noDigitDot_suffix u _ h
  simp only [noDigitDot, Bool.and_eq_true, Bool.not_eq_true', Bool.and_eq_false_iff] at h2
  rcases h2 with ⟨h21 | h21, _⟩
  · exact h21
  · simp at h21

theorem noDigitDot_append (a bL : List Char)
    (ha : noDigitDot a = true) (hb : noDigitDot bL = true)
    (hbd : ∀ x y, a.getLast? = some x → bL.head? = some y →
      (x.isDigit && y = '.') = false) :
    noDigitDot (a ++ bL) = true := by
  induction a with
  | nil => simpa using hb
  | cons c a' ih =>
    cases a' with
    | nil =>
      cases bL with
      | nil => simpa using ha
      | cons y bs =>
        have hpair : (c.isDigit && y = '.') = false := hbd c y (by simp) (by simp)
        simp only [List.cons_append, List.nil_append, noDigitDot, Bool.and_eq_true]
        exact ⟨by simp [hpair], hb⟩
    | cons d a'' =>
      have ha' : noDigitDot (d :: a'') = true := by
        have := noDigitDot_suffix [c] (d :: a'') (by simpa using ha)
        exact this
      have hpair : (!(c.isDigit && d = '.')) = true := by
        simp only [noDigitDot, Bool.and_eq_true] at ha
        exact ha.1
      have hrec := ih ha' (fun x y hx hy =>
        hbd x y (by rw [List.getLast?_cons_cons]; exact hx) hy)
      simp only [List.cons_append] at hrec ⊢
      simp only [noDigitDot, Bool.and_eq_true]
      constructor
      · exact hpair
      · exact hrec

theorem splitGo_sep (ds : List Char) : ∀ run, ∀ cur rest : List Char,
    (run ++ ds) ≠ [] → (∀ c ∈ ds, c.isDigit = true) →
    splitNumDotGo run cur (ds ++ '.' :: rest) =
      cur.reverse :: splitNumDotGo [] [] rest := by
  induction ds with
  | nil =>
    intro run cur rest hne _
    have hrne : run ≠ [] := by simpa using hne
    show splitNumDotGo run cur ('.' :: rest) = _
    simp only [splitNumDotGo]
    rw [if_neg (by decide)]
    rw [if_pos (by simp [List.isEmpty_iff, hrne])]
  | cons d ds' ih =>
    intro run cur rest _ hds
    have hd : d.isDigit = true := hds d (by simp)
    show splitNumDotGo run cur (d :: (ds' ++ '.' :: rest)) = _
    simp only [splitNumDotGo]
    rw [if_pos hd]
    exact ih (d :: run) cur rest (by simp) (fun c hc => hds c (by simp [hc]))

theorem splitGo_literal (a : List Char) : ∀ run cur x,
    noDigitDot (run.reverse ++ a) = true →
    (∀ c ∈ run, c.isDigit = true) →
    ((a = [] ∧ run = []) ∨ (∃ la, a.getLast? = some la ∧ la.isDigit = false)) →
    splitNumDotGo run cur (a ++ x) =
      splitNumDotGo [] (a.reverse ++ (run ++ cur)) x := by
  induction a with
  | nil =>
    intro run cur x _ _ hend
    rcases hend with ⟨_, rfl⟩ | ⟨la, hla, _⟩
    · simp
    · simp at hla
  | cons c a' ih =>
    intro run cur x hnd hrun hend
    by_cases hc : c.isDigit = true
    · have ha'ne : a' ≠ [] := by
        intro h
        subst h
        rcases hend with ⟨h1, _⟩ | ⟨la, hla, hlad⟩
        · cases h1
        · simp at hla
          subst hla
          rw [hc] at hlad
          cases hlad
      show splitNumDotGo run cur (c :: (a' ++ x)) = _
      simp only [splitNumDotGo]
      rw [if_pos hc]
      have hrec := ih (c :: run) cur x
        (by
          have : (c :: run).reverse ++ a' = run.reverse ++ (c :: a') := by
            simp [List.append_assoc]
          rw [this]
          exact hnd)
        (by intro y hy; rcases List.mem_cons.mp hy with rfl | hy'
            · exact hc
            · exact hrun y hy')
        (by
          rcases hend with ⟨h1, _⟩ | ⟨la, hla, hlad⟩
          · cases h1
          · refine Or.inr ⟨la, ?_, hlad⟩
            cases a' with
            | nil => exact absurd rfl ha'ne
            | cons z zs => rw [← List.getLast?_cons_cons (a := c)]; exact hla)
      rw [hrec]
      simp [List.append_assoc]
    · have hnosep : (c = '.' && !(run.isEmpty)) = false := by
        by_cases hcd : c = '.'
        · cases hre : run with
          | nil => simp [hre]
          | cons r0 rr =>
            exfalso
            subst hcd
            have : r0.isDigit = false := by
              refine noDigitDot_no_sep rr.reverse a' r0 ?_
              have : run.reverse ++ '.' :: a' = rr.reverse ++ r0 :: '.' :: a' := by
                rw [hre]
                simp
              rw [← this]
              exact hnd
            rw [hrun r0 (by rw [hre]; simp)] at this
            cases this
        · simp [hcd]
      show splitNumDotGo run cur (c :: (a' ++ x)) = _
      simp only [splitNumDotGo]
      rw [if_neg hc, if_neg (by rw [hnosep]; simp)]
      have hrec := ih [] (c :: (run ++ cur)) x
        (by simpa using noDigitDot_suffix run.reverse (c :: a') hnd |>.symm ▸
          (noDigitDot_suffix [c] a' (noDigitDot_suffix run.reverse (c :: a') hnd)))
        (by intro y hy; simp at hy)
        (by
          rcases hend with ⟨h1, _⟩ | ⟨la, hla, hlad⟩
          · cases h1
          · cases a' with
            | nil => exact Or.inl ⟨rfl, rfl⟩
            | cons z zs =>
              refine Or.inr ⟨la, ?_, hlad⟩
              rw [← List.getLast?_cons_cons (a := c)]
              exact hla)
      rw [hrec]
      simp [List.append_assoc]

-- ========== lemmas: decimal digits ==========

theorem natDigitsCore_digits (n : Nat) : ∀ acc, (∀ c ∈ acc, c.isDigit = true) →
    ∀ c ∈ natDigitsCore n acc, c.isDigit = true := by
  induction n using Nat.strong_induction_on with
  | _ n ih =>
    intro acc hacc c hc
    rw [natDigitsCore] at hc
    by_cases hn : n = 0
    · rw [dif_pos hn] at hc
      exact hacc c hc
    · rw [dif_neg hn] at hc
      refine ih (n / 10) (Nat.div_lt_self (Nat.pos_of_ne_zero hn) (by omega)) _ ?_ c hc
      intro x hx
      rcases List.mem_cons.mp hx with rfl | hx'
      · have hm : n % 10 < 10 := Nat.mod_lt _ (by omega)
        set m := n % 10 with hmdef
        interval_cases m <;> decide
      · exact hacc x hx'

theorem natDigitsCore_ne_nil (n : Nat) : ∀ acc, acc ≠ [] ∨ n ≠ 0 →
    natDigitsCore n acc ≠ [] := by
  induction n using Nat.strong_induction_on with
  | _ n ih =>
    intro acc hor
    rw [natDigitsCore]
    by_cases hn : n = 0
    · rw [dif_pos hn]
      rcases hor with h | h
      · exact h
      · exact absurd hn h
    · rw [dif_neg hn]
      exact ih (n / 10) (Nat.div_lt_self (Nat.pos_of_ne_zero hn) (by omega)) _
        (Or.inl (by simp))

theorem natDigits_digits (n : Nat) : ∀ c ∈ natDigits n, c.isDigit = true := by
  unfold natDigits
  by_cases hn : n = 0
  · rw [if_pos hn]
    intro c hc
    simp at hc
    subst hc
    decide
  · rw [if_neg hn]
    exact natDigitsCore_digits n [] (by simp)

theorem natDigits_ne_nil (n : Nat) : natDigits n ≠ [] := by
  unfold natDigits
  by_cases hn : n = 0
  · rw [if_pos hn]; simp
  · rw [if_neg hn]
    exact natDigitsCore_ne_nil n [] (Or.inr hn)

-- ========== lemmas: splitting a rendered email list ==========

theorem splitGo_render (bs : List EmailData) : ∀ k, ∀ cur : List Char,
    bs ≠ [] →
    (∀ b ∈ bs, noDigitDot (bodyOf b ++ ['\n']) = true) →
    splitNumDotGo [] cur (renderFrom k bs) =
      cur.reverse :: bs.map (fun b => bodyOf b ++ ['\n']) := by
  induction bs with
  | nil => intro k cur h _; cases h rfl
  | cons b rest ih =>
    intro k cur _ hnd
    show splitNumDotGo [] cur
      (natDigits k ++ '.' :: (bodyOf b ++ '\n' :: renderFrom (k + 1) rest)) = _
    rw [splitGo_sep (natDigits k) [] cur _
      (by simpa using natDigits_ne_nil k) (natDigits_digits k)]
    rw [show bodyOf b ++ '\n' :: renderFrom (k + 1) rest =
      (bodyOf b ++ ['\n']) ++ renderFrom (k + 1) rest by simp]
    rw [splitGo_literal (bodyOf b ++ ['\n']) [] [] _
      (by simpa using hnd b (by simp)) (by simp)
      (Or.inr ⟨'\n', by simp, by decide⟩)]
    cases rest with
    | nil =>
      show _ :: splitNumDotGo [] _ [] = _
      simp [splitNumDotGo]
    | cons b2 rest2 =>
      rw [ih (k + 1) _ (by simp) (fun x hx => hnd x (by simp [hx]))]
      simp

-- ========== lemmas: segment counts and containment ==========

theorem splitGo_length (t : List Char) : ∀ run cur,
    (splitNumDotGo run cur t).length = countNumDotGo run t + 1 := by
  induction t with
  | nil => intro run cur; simp [splitNumDotGo, countNumDotGo]
  | cons c cs ih =>
    intro run cur
    by_cases hc : c.isDigit = true
    · simp only [splitNumDotGo, countNumDotGo, if_pos hc]
      exact ih _ _
    · by_cases hsep : (c = '.' && !(run.isEmpty)) = true
      · simp only [splitNumDotGo, countNumDotGo, if_neg hc, if_pos hsep]
        simp [ih]
      · simp only [splitNumDotGo, countNumDotGo, if_neg hc, if_neg hsep]
        exact ih _ _

theorem splitGo_seg_substr (t : List Char) : ∀ run cur seg p,
    seg ∈ splitNumDotGo run cur t →
    isSubstr p seg = true →
    isSubstr p (cur.reverse ++ (run.reverse ++ t)) = true := by
  induction t with
  | nil =>
    intro run cur seg p hseg hsub
    simp only [splitNumDotGo, List.mem_singleton] at hseg
    subst hseg
    rw [List.reverse_append] at hsub
    simpa using hsub
  | cons c cs ih =>
    intro run cur seg p hseg hsub
    simp only [splitNumDotGo] at hseg
    by_cases hc : c.isDigit = true
    · rw [if_pos hc] at hseg
      have h2 := ih (c :: run) cur seg p hseg hsub
      simp only [List.reverse_cons, List.append_assoc] at h2
      simpa [List.append_assoc] using h2
    · rw [if_neg (by simp [hc])] at hseg
      by_cases hsep : (c = '.' && !(run.isEmpty)) = true
      · rw [if_pos hsep] at hseg
        rcases List.mem_cons.mp hseg with rfl | hseg'
        · exact isSubstr_append_left p _ _ hsub
        · have h2 := ih [] [] seg p hseg' hsub
          simp only [List.reverse_nil, List.nil_append] at h2
          exact isSubstr_append_right _ _ _
            (isSubstr_append_right _ _ _ (isSubstr_cons _ _ _ h2))
      · rw [if_neg hsep] at hseg
        have h2 := ih [] (c :: (run ++ cur)) seg p hseg hsub
        simp only [List.reverse_cons, List.reverse_append, List.reverse_nil,
          List.nil_append, List.append_assoc] at h2
        simpa [List.append_assoc] using h2

theorem splitNumDot_seg_substr (t seg p : List Char)
    (hseg : seg ∈ (splitNumDot t).drop 1) (hsub : isSubstr p seg = true) :
    isSubstr p t = true := by
  have hmem : seg ∈ splitNumDot t := List.drop_subset 1 (splitNumDot t) hseg
  have := splitGo_seg_substr t [] [] seg p hmem hsub
  simpa using this

-- ========== lemmas: the push-style fold ==========

theorem foldl_push_filterMap {α β : Type} (f : α → Option β) (l : List α) :
    ∀ acc, l.foldl (pushSome f) acc = acc ++ l.filterMap f := by
  induction l with
  | nil => intro acc; simp
  | cons x xs ih =>
    intro acc
    simp only [List.foldl_cons]
    cases hfx : f x with
    | none => rw [ih]; simp [pushSome, List.filterMap_cons, hfx]
    | some e => rw [ih]; simp [pushSome, List.filterMap_cons, hfx]

-- ========== lemmas: a rendered body has no digit-period pair ==========

theorem noDigitDot_append_lastSafe (A B : List Char)
    (ha : noDigitDot A = true) (hb : noDigitDot B = true)
    (la : Char) (hlast : A.getLast? = some la) (hld : la.isDigit = false) :
    noDigitDot (A ++ B) = true := by
  refine noDigitDot_append A B ha hb ?_
  intro x y hx _
  rw [hlast] at hx
  injection hx with hx
  subst hx
  simp [hld]

theorem noDigitDot_append_headSafe (A B : List Char)
    (ha : noDigitDot A = true) (hb : noDigitDot B = true)
    (hd : Char) (hhead : B.head? = some hd) (hnd : hd ≠ '.') :
    noDigitDot (A ++ B) = true := by
  refine noDigitDot_append A B ha hb ?_
  intro x y _ hy
  rw [hhead] at hy
  injection hy with hy
  subst hy
  simp [hnd]

theorem bodyOf_noDigitDot (b : EmailData)
    (hf : GoodField b.«from») (hd : GoodField b.date)
    (hs : GoodField b.subject) (hc : GoodField b.content) :
    noDigitDot (bodyOf b ++ ['\n']) = true := by
  rw [bodyOf_eq]
  simp only [List.append_assoc]
  refine noDigitDot_append_lastSafe _ _ (by decide) ?_ ' ' (by decide) (by decide)
  refine noDigitDot_append_lastSafe _ _ (by decide) ?_ ' ' (by decide) (by decide)
  refine noDigitDot_append_headSafe _ _ hf.2 ?_ ' ' (by simp) (by decide)
  refine noDigitDot_append_lastSafe _ _ (by decide) ?_ ' ' (by decide) (by decide)
  refine noDigitDot_append_lastSafe _ _ (by decide) ?_ ' ' (by decide) (by decide)
  refine noDigitDot_append_headSafe _ _ hd.2 ?_ ' ' (by simp) (by decide)
  refine noDigitDot_append_lastSafe _ _ (by decide) ?_ ' ' (by decide) (by decide)
  refine noDigitDot_append_lastSafe _ _ (by decide) ?_ ' ' (by decide) (by decide)
  refine noDigitDot_append_headSafe _ _ hs.2 ?_ ' ' (by simp) (by decide)
  refine noDigitDot_append_lastSafe _ _ (by decide) ?_ ' ' (by decide) (by decide)
  refine noDigitDot_append_lastSafe _ _ (by decide) ?_ ' ' (by decide) (by decide)
  exact noDigitDot_append_headSafe _ _ hc.2 (by decide) '\n' (by simp) (by decide)

theorem filterMap_eq_map_of_some {α β : Type} (f : α → Option β) (g : α → β)
    (l : List α) (h : ∀ x ∈ l, f x = some (g x)) : l.filterMap f = l.map g := by
  induction l with
  | nil => rfl
  | cons x xs ih =>
    rw [List.filterMap_cons, h x (by simp), List.map_cons,
      ih (fun y hy => h y (by simp [hy]))]

-- ========== the email round-trip ==========

set_option maxHeartbeats 1600000 in
theorem parseMultipleEmails_render (bs : List EmailData)
    (hgood : ∀ b ∈ bs, GoodEmail b) :
    parseMultipleEmails (renderEmails bs) = bs.map trimmedRec := by
  cases bs with
  | nil => rfl
  | cons b0 rest =>
    have hnd : ∀ b ∈ (b0 :: rest), noDigitDot (bodyOf b ++ ['\n']) = true := by
      intro b hb
      obtain ⟨h1, h2, h3, h4, _⟩ := hgood b hb
      exact bodyOf_noDigitDot b h1 h2 h3 h4
    have hsplit : splitNumDot (renderEmails (b0 :: rest)) =
        [] :: (b0 :: rest).map (fun b => bodyOf b ++ ['\n']) := by
      unfold splitNumDot renderEmails
      have := splitGo_render (b0 :: rest) 1 [] (by simp) hnd
      simpa using this
    unfold parseMultipleEmails
    rw [hsplit]
    simp only [List.drop_succ_cons, List.drop_zero]
    have hkeep : ((b0 :: rest).map (fun b => bodyOf b ++ ['\n'])).filter keepBlock
        = (b0 :: rest).map (fun b => bodyOf b ++ ['\n']) := by
      rw [List.filter_eq_self]
      intro seg hseg
      rcases List.mem_map.mp hseg with ⟨b, hb, rfl⟩
      obtain ⟨_, _, _, _, hph⟩ := hgood b hb
      unfold keepBlock
      simp only [Bool.not_eq_true', List.any_eq_false]
      intro p hp
      simp [hph p hp]
    rw [hkeep]
    have hfold := foldl_push_filterMap parseEmailFromText
      ((b0 :: rest).map (fun b => bodyOf b ++ ['\n'])) []
    rw [hfold, List.nil_append, List.filterMap_map]
    refine filterMap_eq_map_of_some _ _ _ ?_
    intro b hb
    obtain ⟨h1, h2, h3, _, _⟩ := hgood b hb
    exact parseEmail_seg b ['\n'] h1 h2 h3 (by decide)

-- ========== lemmas: JSON parsing of a content frame ==========

theorem parseStrBody_safe (s : List Char) (h : ∀ c ∈ s, c ≠ '"' ∧ c ≠ '\\') :
    ∀ r, parseStrBody (s ++ '"' :: r) = some (s, r) := by
  induction s with
  | nil => intro r; rfl
  | cons c s' ih =>
    intro r
    have hc := h c (by simp)
    show parseStrBody (c :: (s' ++ '"' :: r)) = _
    rw [parseStrBody.eq_def]
    split
    · next heq => cases heq
    · next heq =>
      injection heq with e1 e2
      exact absurd e1 hc.1
    · next heq =>
      injection heq with e1 e2
      exact absurd e1 hc.2
    · next x y heq =>
      injection heq with e1 e2
      subst e1
      subst e2
      rw [ih (fun z hz => h z (by simp [hz])) r]
      rfl

theorem parseValue_contentFrame (m : Nat) (s : List Char)
    (hs : ∀ c ∈ s, c ≠ '"' ∧ c ≠ '\\') :
    parseValue (m + 4)
      ('{' :: '"' :: 't' :: 'y' :: 'p' :: 'e' :: '"' :: ':' :: '"' :: 'c' :: 'o' ::
        'n' :: 't' :: 'e' :: 'n' :: 't' :: '"' :: ',' :: '"' :: 'c' :: 'o' :: 'n' ::
        't' :: 'e' :: 'n' :: 't' :: '"' :: ':' :: '"' :: (s ++ ('"' :: ['}'])))
    = some (JsValue.obj
        [(typeKey, JsValue.str contentTag), (contentKey, JsValue.str s)], []) := by
  have hbody := parseStrBody_safe s hs ['}']
  simp [parseValue, parseMembers, parseStrBody, isJsonWs, hbody, typeKey,
    contentKey, contentTag]

theorem jsonParse_contentJson (s : List Char)
    (hs : ∀ c ∈ s, c ≠ '"' ∧ c ≠ '\\') :
    jsonParse (contentJson s) = some (JsValue.obj
      [(typeKey, JsValue.str contentTag), (contentKey, JsValue.str s)]) := by
  have e : contentJson s =
      '{' :: '"' :: 't' :: 'y' :: 'p' :: 'e' :: '"' :: ':' :: '"' :: 'c' :: 'o' ::
        'n' :: 't' :: 'e' :: 'n' :: 't' :: '"' :: ',' :: '"' :: 'c' :: 'o' :: 'n' ::
        't' :: 'e' :: 'n' :: 't' :: '"' :: ':' :: '"' :: (s ++ ('"' :: ['}'])) := rfl
  unfold jsonParse
  rw [e]
  have hl : ('{' :: '"' :: 't' :: 'y' :: 'p' :: 'e' :: '"' :: ':' :: '"' :: 'c' ::
      'o' :: 'n' :: 't' :: 'e' :: 'n' :: 't' :: '"' :: ',' :: '"' :: 'c' :: 'o' ::
      'n' :: 't' :: 'e' :: 'n' :: 't' :: '"' :: ':' :: '"' ::
      (s ++ ('"' :: ['}']))).length + 1 = (s.length + 28) + 4 := by
    simp only [List.length_cons, List.length_append, List.length_cons,
      List.length_nil]
    
  rw [hl, parseValue_contentFrame (s.length + 28) s hs]
  rfl

-- ========== lemmas: the per-line decoder step ==========

theorem processLine_nil (st : List Char × List (List Char)) :
    processLine st [] = st := rfl

theorem processLine_not_data (st : List Char × List (List Char)) (line : List Char)
    (h : isPre dataPfx line = false) :
    processLine st line = st := by
  unfold processLine
  rw [if_neg (by simp [h])]

theorem processLine_bad_json (st : List Char × List (List Char)) (line : List Char)
    (h : jsonParse (List.drop 6 line) = none) :
    processLine st line = st := by
  by_cases hp : isPre dataPfx line = true
  · unfold processLine
    rw [if_pos hp, h]
  · exact processLine_not_data st line (by simpa using hp)

theorem processLine_dataLine (st : List Char × List (List Char)) (s : List Char)
    (hs : ∀ c ∈ s, c ≠ '"' ∧ c ≠ '\\') :
    processLine st (dataLine s) = (st.1 ++ s, st.2 ++ [st.1 ++ s]) := by
  unfold processLine
  have hpre : isPre dataPfx (dataLine s) = true := isPre_append _ _
  rw [if_pos hpre]
  have hdrop : List.drop 6 (dataLine s) = contentJson s :=
    List.drop_left dataPfx (contentJson s)
  rw [hdrop, jsonParse_contentJson s hs]
  rfl

-- ========== lemmas: newline splitting of whole frame lines ==========

theorem splitNl_append_nl (a bl : List Char) (h : '\n' ∉ a) :
    splitNl (a ++ '\n' :: bl) = a :: splitNl bl := by
  induction a with
  | nil => simp [splitNl]
  | cons c cs ih =>
    have hc : ¬ c = '\n' := fun e => h (by simp [e])
    show splitNl (c :: (cs ++ '\n' :: bl)) = _
    simp only [splitNl]
    rw [if_neg hc, ih (fun hm => h (by simp [hm]))]

theorem newline_not_mem_dataLine (s : List Char) (hs : ∀ c ∈ s, c ≠ '\n') :
    '\n' ∉ dataLine s := by
  intro hmem
  unfold dataLine contentJson at hmem
  rcases List.mem_append.mp hmem with h1 | h2
  · revert h1; decide
  · rcases List.mem_append.mp h2 with h3 | h4
    · rcases List.mem_append.mp h3 with h5 | h6
      · revert h5; decide
      · exact hs '\n' h6 rfl
    · revert h4; decide

theorem splitNl_frameLines (ls : List (List Char))
    (h : ∀ x ∈ ls, SafeContent x) :
    splitNl ((ls.map frameLine).flatten) = ls.map dataLine ++ [[]] := by
  induction ls with
  | nil => rfl
  | cons x ls' ih =>
    have hx := h x (by simp)
    show splitNl (frameLine x ++ (ls'.map frameLine).flatten) = _
    rw [show frameLine x ++ (ls'.map frameLine).flatten
        = dataLine x ++ '\n' :: (ls'.map frameLine).flatten by simp [frameLine]]
    rw [splitNl_append_nl _ _
      (newline_not_mem_dataLine x (fun c hc => (hx c hc).2.2))]
    rw [ih (fun y hy => h y (by simp [hy]))]
    rfl

-- ========== lemmas: folding the decoder over whole-line chunks ==========

theorem foldl_dataLines (ls : List (List Char)) :
    ∀ st : List Char × List (List Char), (∀ x ∈ ls, SafeContent x) →
    ((ls.map dataLine).foldl processLine st).1 = st.1 ++ ls.flatten := by
  induction ls with
  | nil => intro st _; simp
  | cons x ls' ih =>
    intro st h
    have hx := h x (by simp)
    show ((ls'.map dataLine).foldl processLine (processLine st (dataLine x))).1 = _
    rw [processLine_dataLine st x (fun c hc => ⟨(hx c hc).1, (hx c hc).2.1⟩)]
    rw [ih _ (fun y hy => h y (by simp [hy]))]
    simp

theorem runStream_lineChunks (fss : List (List (List Char)))
    (h : ∀ x ∈ fss.flatten, SafeContent x) :
    (runStream (fss.map (fun fs => (fs.map frameLine).flatten))).1 =
      fss.flatten.flatten := by
  unfold runStream
  suffices H : ∀ st : List Char × List (List Char),
      ((fss.map (fun fs => (fs.map frameLine).flatten)).foldl
        (fun st chunk => (splitNl chunk).foldl processLine st) st).1 =
      st.1 ++ fss.flatten.flatten by
    simpa using H ([], [])
  induction fss with
  | nil => intro st; simp
  | cons fs rest ih =>
    intro st
    have hfs : ∀ x ∈ fs, SafeContent x := fun x hx => h x (by simp [hx])
    have hrest : ∀ x ∈ rest.flatten, SafeContent x := fun x hx =>
      h x (by simp [hx])
    show ((rest.map (fun fs => (fs.map frameLine).flatten)).foldl
        (fun st chunk => (splitNl chunk).foldl processLine st)
        ((splitNl ((fs.map frameLine).flatten)).foldl processLine st)).1 = _
    rw [ih hrest]
    rw [splitNl_frameLines fs hfs]
    rw [List.foldl_append]
    show (processLine ((fs.map dataLine).foldl processLine st) []).1 ++ _ = _
    rw [processLine_nil]
    rw [foldl_dataLines fs st hfs]
    simp

-- ========== lemmas: matches force label occurrence ==========

theorem matchField_isSubstr (lbl nxt : List Char) : ∀ t cap,
    matchField lbl nxt t = some cap → isSubstr lbl t = true := by
  intro t
  induction t with
  | nil => intro cap h; simp [matchField] at h
  | cons c cs ih =>
    intro cap h
    by_cases hp : isPre lbl (c :: cs) = true
    · exact isSubstr_of_isPre _ _ hp
    · have hp' : isPre lbl (c :: cs) = false := by simpa using hp
      rw [matchField_cons_skip _ _ _ _ hp'] at h
      exact isSubstr_cons _ _ _ (ih cap h)

theorem matchToEnd_isSubstr (lbl : List Char) : ∀ t cap,
    matchToEnd lbl t = some cap → isSubstr lbl t = true := by
  intro t
  induction t with
  | nil => intro cap h; simp [matchToEnd] at h
  | cons c cs ih =>
    intro cap h
    by_cases hp : isPre lbl (c :: cs) = true
    · exact isSubstr_of_isPre _ _ hp
    · have hp' : isPre lbl (c :: cs) = false := by simpa using hp
      rw [matchToEnd_cons_skip _ _ _ hp'] at h
      exact isSubstr_cons _ _ _ (ih cap h)

-- ========== lemmas: block-level record shapes ==========

theorem calBlock_event_none (b : List Char)
    (h : matchField lblEvent nxtLoc b = none) : calBlock b = none := by
  unfold calBlock
  rw [h]

theorem calBlock_loc_none (b : List Char)
    (h : matchField lblLoc nxtTime b = none) : calBlock b = none := by
  unfold calBlock
  rw [h]
  cases matchField lblEvent nxtLoc b <;> cases matchToEnd lblTime b <;> rfl

theorem calBlock_shape (b : List Char) (e : CalendarEvent)
    (h : calBlock b = some e) :
    ∃ ev l tm, matchField lblEvent nxtLoc b = some ev ∧
      matchField lblLoc nxtTime b = some l ∧ matchToEnd lblTime b = some tm ∧
      e = ⟨trim ev, trim l, trim tm⟩ := by
  cases h1 : matchField lblEvent nxtLoc b with
  | none => rw [calBlock_event_none b h1] at h; cases h
  | some ev =>
    cases h2 : matchField lblLoc nxtTime b with
    | none => rw [calBlock_loc_none b h2] at h; cases h
    | some l =>
      cases h3 : matchToEnd lblTime b with
      | none =>
        unfold calBlock at h
        rw [h1, h2, h3] at h
        cases h
      | some tm =>
        unfold calBlock at h
        rw [h1, h2, h3] at h
        injection h with h'
        exact ⟨ev, l, tm, rfl, rfl, rfl, h'.symm⟩

theorem parseEmail_shape (t : List Char) (r : EmailData)
    (h : parseEmailFromText t = some r) :
    ∃ f d s c, matchField lblFrom nxtDate t = some f ∧
      matchField lblDate nxtSubj t = some d ∧
      matchField lblSubj nxtCont t = some s ∧
      matchToEnd lblCont t = some c ∧
      r = ⟨trim f, trim d, trim s, trim c⟩ := by
  unfold parseEmailFromText at h
  cases h1 : matchField lblFrom nxtDate t <;> rw [h1] at h
  · cases h2 : matchField lblDate nxtSubj t <;> rw [h2] at h <;>
      cases h3 : matchField lblSubj nxtCont t <;> rw [h3] at h <;>
      cases h4 : matchToEnd lblCont t <;> rw [h4] at h <;> cases h
  · cases h2 : matchField lblDate nxtSubj t <;> rw [h2] at h
    · cases h3 : matchField lblSubj nxtCont t <;> rw [h3] at h <;>
        cases h4 : matchToEnd lblCont t <;> rw [h4] at h <;> cases h
    · cases h3 : matchField lblSubj nxtCont t <;> rw [h3] at h
      · cases h4 : matchToEnd lblCont t <;> rw [h4] at h <;> cases h
      · cases h4 : matchToEnd lblCont t <;> rw [h4] at h
        · cases h
        · injection h with h'
          exact ⟨_, _, _, _, rfl, rfl, rfl, rfl, h'.symm⟩

-- ========== lemmas: extractor pipelines ==========

theorem parseMultipleEmails_pipeline (t : List Char) :
    parseMultipleEmails t =
      (((splitNumDot t).drop 1).filter keepBlock).filterMap parseEmailFromText := by
  unfold parseMultipleEmails
  have h := foldl_push_filterMap parseEmailFromText
    (((splitNumDot t).drop 1).filter keepBlock) []
  rw [h]
  simp

theorem parseCalendar_pipeline (t : List Char) :
    parseCalendarEventsFromText t =
      ((splitNumDot t).drop 1).filterMap calBlock := by
  unfold parseCalendarEventsFromText
  have h := foldl_push_filterMap calBlock ((splitNumDot t).drop 1) []
  rw [h]
  simp

theorem filterMap_all_none {α β : Type} (f : α → Option β) (l : List α)
    (h : ∀ x ∈ l, f x = none) : l.filterMap f = [] := by
  induction l with
  | nil => rfl
  | cons x xs ih =>
    rw [List.filterMap_cons, h x (by simp)]
    exact ih (fun y hy => h y (by simp [hy]))

theorem splitNumDot_length (t : List Char) :
    (splitNumDot t).length = countNumDot t + 1 :=
  splitGo_length t [] []

-- ========== claims ==========

/-- C1 counterexample: the spec example chunk list, which splits the frame in
    the middle of its line, yields an empty AccumulatedText and no snapshot
    emission (not one emission with text Hello), while the same bytes in a
    single chunk do yield Hello: decoding is not split-invariant because
    api.post keeps no carry-over buffer between chunks. -/
theorem c1_counterexample :
    (runStream [("data: \x7b\"typ").toList,
      ("e\":\"content\",\"content\":\"Hel").toList,
      ("lo\"\x7d\n").toList]).1 = [] ∧
    (runStream [("data: \x7b\"typ").toList,
      ("e\":\"content\",\"content\":\"Hel").toList,
      ("lo\"\x7d\n").toList]).2 = [] ∧
    (runStream [(("data: \x7b\"typ").toList ++
      ("e\":\"content\",\"content\":\"Hel").toList ++
      ("lo\"\x7d\n").toList)]).1 = ("Hello").toList := by
  decide

/-- C1 (amended): when every chunk boundary falls on a line boundary — the
    frames are grouped into consecutive slices and each chunk is the
    concatenation of the whole frame lines of one slice — the final
    AccumulatedText equals the concatenation of all content fragments in
    frame order. A chunk boundary inside a line loses that frame, as the
    counterexample shows. -/
theorem c1_amended_streaming (fss : List (List (List Char)))
    (h : ∀ x ∈ fss.flatten, SafeContent x) :
    (runStream (fss.map (fun fs => (fs.map frameLine).flatten))).1 =
      fss.flatten.flatten :=
  runStream_lineChunks fss h

/-- C1 witness: three whole-line chunks carrying the fragments He, l, lo
    decode to Hello. -/
theorem c1_witness :
    (runStream ([[("He").toList], [("l").toList], [("lo").toList]].map
      (fun fs => (fs.map frameLine).flatten))).1 = ("Hello").toList := by
  have h := c1_amended_streaming
    [[("He").toList], [("l").toList], [("lo").toList]] (by decide)
  exact h.trans (by decide)

/-- C2 counterexample: the line data: followed by a JSON object of content
    type with no content field appends the text undefined to the accumulated
    string (JS string coercion of undefined), so such a line does not
    contribute nothing. -/
theorem c2_counterexample :
    processLine ([], []) (("data: \x7b\"type\":\"content\"\x7d").toList) =
      (("undefined").toList, [("undefined").toList]) ∧
    (processLine ([], []) (("data: \x7b\"type\":\"content\"\x7d").toList)).1.length
      = 9 := by
  decide

/-- C2 (amended): a line that is not valid JSON after the prefix contributes
    nothing to AccumulatedText and never aborts processing of subsequent
    lines; but a well-formed content frame lacking the content field appends
    the literal text undefined (and also continues). -/
theorem c2_amended_line_errors :
    (∀ (st : List Char × List (List Char)) (line : List Char),
      jsonParse (List.drop 6 line) = none →
      processLine st line = st ∧
      ∀ rest : List (List Char),
        (line :: rest).foldl processLine st = rest.foldl processLine st) ∧
    (∀ st : List Char × List (List Char),
      processLine st (("data: \x7b\"type\":\"content\"\x7d").toList) =
        (st.1 ++ ("undefined").toList, st.2 ++ [st.1 ++ ("undefined").toList])) := by
  constructor
  · intro st line h
    refine ⟨processLine_bad_json st line h, ?_⟩
    intro rest
    simp [List.foldl_cons, processLine_bad_json st line h]
  · intro st
    rfl

/-- C2 witness: a malformed line leaves a concrete state unchanged. -/
theorem c2_witness :
    processLine (("A").toList, [("A").toList]) (("data: oops").toList) =
      (("A").toList, [("A").toList]) :=
  (c2_amended_line_errors.1 (("A").toList, [("A").toList])
    (("data: oops").toList) (by rfl)).1

/-- C3 counterexample: an input whose labels are all adjacent produces a
    record whose from, date and subject fields are empty after trimming, and
    the record is still emitted — the extractor never checks non-emptiness. -/
theorem c3_counterexample :
    parseMultipleEmails
      (("1. **From**: - **Date**: - **Subject**: - **Content**: x").toList) =
      [⟨[], [], [], ['x']⟩] ∧ trim ([] : List Char) = [] := by
  decide

/-- C3 (amended): every emitted email record has all four label patterns
    matched in the input and its fields are whitespace-trimmed (trimming
    again changes nothing), but fields may be empty; calendar records are
    likewise trimmed. Emission is decided only by the four matches, not by
    non-emptiness. -/
theorem c3_amended_field_invariant :
    (∀ (t : List Char) (r : EmailData), parseEmailFromText t = some r →
      trim r.«from» = r.«from» ∧ trim r.date = r.date ∧
      trim r.subject = r.subject ∧ trim r.content = r.content ∧
      isSubstr lblFrom t = true ∧ isSubstr lblDate t = true ∧
      isSubstr lblSubj t = true ∧ isSubstr lblCont t = true) ∧
    (∀ (t : List Char) (e : CalendarEvent), e ∈ parseCalendarEventsFromText t →
      trim e.event = e.event ∧ trim e.location = e.location ∧
      trim e.time = e.time) := by
  constructor
  · intro t r h
    obtain ⟨f, d, s, c, h1, h2, h3, h4, rfl⟩ := parseEmail_shape t r h
    exact ⟨trim_idem f, trim_idem d, trim_idem s, trim_idem c,
      matchField_isSubstr _ _ t f h1, matchField_isSubstr _ _ t d h2,
      matchField_isSubstr _ _ t s h3, matchToEnd_isSubstr _ t c h4⟩
  · intro t e h
    rw [parseCalendar_pipeline] at h
    obtain ⟨b, _, hb⟩ := List.mem_filterMap.mp h
    obtain ⟨ev, l, tm, _, _, _, rfl⟩ := calBlock_shape b e hb
    exact ⟨trim_idem ev, trim_idem l, trim_idem tm⟩

/-- C3 witness: the invariant evaluated on a concrete parse. -/
theorem c3_witness :
    trim (['a'] : List Char) = ['a'] ∧
    isSubstr lblFrom
      (("**From**: a - **Date**: b - **Subject**: c - **Content**: d").toList)
      = true := by
  have h := c3_amended_field_invariant.1
    (("**From**: a - **Date**: b - **Subject**: c - **Content**: d").toList)
    ⟨['a'], ['b'], ['c'], ['d']⟩ (by decide)
  exact ⟨h.1, h.2.2.2.2.1⟩

/-- C4 counterexample: the spec example text contains no [EMAIL] marker, so
    detectMessageType classifies it as plain text, not as an email list. -/
theorem c4_counterexample :
    detectMessageType
      (("1. **From**: a@x.com - **Date**: Mon - **Subject**: Hi - **Content**: test").toList)
      = MessageType.text ∧ MessageType.text ≠ MessageType.email := by
  decide

/-- C4 (amended): the example text is classified PlainText by the classifier
    (it lacks the [EMAIL] marker), while the email extractor applied to it
    still returns exactly the one expected record. -/
theorem c4_amended_example :
    detectMessageType
      (("1. **From**: a@x.com - **Date**: Mon - **Subject**: Hi - **Content**: test").toList)
      = MessageType.text ∧
    parseMultipleEmails
      (("1. **From**: a@x.com - **Date**: Mon - **Subject**: Hi - **Content**: test").toList)
      = [⟨("a@x.com").toList, ("Mon").toList, ("Hi").toList, ("test").toList⟩] := by
  decide

/-- C5: the classifier is total with ordered short-circuit checks — the
    email marker wins over the calendar markers, the calendar kind needs both
    Event and Location markers, and everything else is plain text; in
    particular a text containing all three markers classifies as email. -/
theorem c5_classifier_order (t : List Char) :
    ((detectMessageType t = MessageType.email) ↔ isSubstr emailMark t = true) ∧
    ((detectMessageType t = MessageType.calendar) ↔
      (isSubstr emailMark t = false ∧ isSubstr evMark t = true ∧
        isSubstr locMark t = true)) ∧
    ((detectMessageType t = MessageType.text) ↔
      (isSubstr emailMark t = false ∧
        (isSubstr evMark t = false ∨ isSubstr locMark t = false))) ∧
    (isSubstr emailMark t = true → isSubstr evMark t = true →
      isSubstr locMark t = true → detectMessageType t = MessageType.email) := by
  cases h1 : isSubstr emailMark t <;> cases h2 : isSubstr evMark t <;>
    cases h3 : isSubstr locMark t <;>
    simp [detectMessageType, h1, h2, h3]

/-- C5 witness: a text with all three markers classifies as email. -/
theorem c5_witness :
    detectMessageType (("[EMAIL] **Event**: x **Location**: y").toList) =
      MessageType.email :=
  (c5_classifier_order (("[EMAIL] **Event**: x **Location**: y").toList)).2.2.2
    (by decide) (by decide) (by decide)

/-- C6: round-trip of email extraction — a text built by numbering N
    well-formed labeled blocks yields exactly the N records in order, each
    field equal to its input after trimming; the empty input text yields the
    empty sequence. -/
theorem c6_email_roundtrip :
    (∀ bs : List EmailData, (∀ b ∈ bs, GoodEmail b) →
      parseMultipleEmails (renderEmails bs) = bs.map trimmedRec) ∧
    parseMultipleEmails [] = [] :=
  ⟨parseMultipleEmails_render, rfl⟩

/-- C6 witness: a concrete two-block round trip, with trimming visible in
    the second record. -/
theorem c6_witness :
    parseMultipleEmails (renderEmails
      [⟨("a@x").toList, ("Mon").toList, ("Hi").toList, ("hello world").toList⟩,
       ⟨(" b ").toList, ("Tue").toList, ("Re").toList, ("ok").toList⟩]) =
    [⟨("a@x").toList, ("Mon").toList, ("Hi").toList, ("hello world").toList⟩,
     ⟨("b").toList, ("Tue").toList, ("Re").toList, ("ok").toList⟩] := by
  have h := c6_email_roundtrip.1
    [⟨("a@x").toList, ("Mon").toList, ("Hi").toList, ("hello world").toList⟩,
     ⟨(" b ").toList, ("Tue").toList, ("Re").toList, ("ok").toList⟩]
    (by decide)
  exact h.trans (by decide)

/-- C7: the extractor first drops every numbered segment containing a
    closing phrase and only then parses; a segment with all four well-formed
    fields plus the phrase Just let me know is excluded in its entirety even
    though it parses on its own. -/
theorem c7_closing_filter :
    (∀ t : List Char, parseMultipleEmails t =
      (((splitNumDot t).drop 1).filter keepBlock).filterMap parseEmailFromText) ∧
    parseMultipleEmails
      (("1. **From**: a - **Date**: b - **Subject**: c - **Content**: d Just let me know").toList)
      = [] ∧
    parseEmailFromText
      ((" **From**: a - **Date**: b - **Subject**: c - **Content**: d Just let me know").toList)
      ≠ none := by
  refine ⟨parseMultipleEmails_pipeline, by decide, by decide⟩

/-- C8: the calendar extractor is total; on any text lacking the Event
    marker or the Location marker anywhere it returns the empty sequence, and
    a malformed segment is skipped while later segments are still
    extracted. -/
theorem c8_calendar_total :
    (∀ t : List Char,
      isSubstr evMark t = false ∨ isSubstr locMark t = false →
      parseCalendarEventsFromText t = []) ∧
    parseCalendarEventsFromText
      (("1. **Event**: A - **Location**: L 2. **Event**: B - **Location**: M - **Time**: T").toList)
      = [⟨['B'], ['M'], ['T']⟩] := by
  constructor
  · intro t h
    rw [parseCalendar_pipeline]
    apply filterMap_all_none
    intro b hb
    cases hcb : calBlock b with
    | none => rfl
    | some e =>
      exfalso
      obtain ⟨ev, l, tm, h1, h2, _, _⟩ := calBlock_shape b e hcb
      rcases h with h | h
      · have hs1 : isSubstr lblEvent b = true := matchField_isSubstr _ _ b ev h1
        have heq : lblEvent = evMark ++ [' '] := by decide
        have hs2 : isSubstr evMark b = true :=
          isSubstr_mono_pat evMark [' '] b (by rw [← heq]; exact hs1)
        have hs3 : isSubstr evMark t = true :=
          splitNumDot_seg_substr t b evMark hb hs2
        rw [h] at hs3
        cases hs3
      · have hs1 : isSubstr lblLoc b = true := matchField_isSubstr _ _ b l h2
        have heq : lblLoc = locMark ++ [' '] := by decide
        have hs2 : isSubstr locMark b = true :=
          isSubstr_mono_pat locMark [' '] b (by rw [← heq]; exact hs1)
        have hs3 : isSubstr locMark t = true :=
          splitNumDot_seg_substr t b locMark hb hs2
        rw [h] at hs3
        cases hs3
  · decide

/-- C8 witness: a text with no markers at all yields the empty sequence. -/
theorem c8_witness :
    parseCalendarEventsFromText (("hello world, no events here").toList) = [] :=
  c8_calendar_total.1 (("hello world, no events here").toList)
    (Or.inl (by decide))

/-- C9: a non-ok transport response or a missing readable stream makes
    api.post throw immediately — the HTTP error or the no-reader error — and
    the observer is never invoked in either case. -/
theorem c9_transport_failure (resp : FetchResponse) :
    (resp.ok = false →
      apiPost resp = Except.error (httpErrMsg resp.status) ∧
      apiPostEmissions resp = []) ∧
    (resp.body = none → resp.ok = true →
      apiPost resp = Except.error noReaderMsg ∧
      apiPostEmissions resp = []) := by
  constructor
  · intro h
    constructor <;> simp [apiPost, apiPostEmissions, h]
  · intro h1 h2
    constructor <;> simp [apiPost, apiPostEmissions, h1, h2]

/-- C9 witness: a concrete failed response throws the HTTP error with no
    emissions. -/
theorem c9_witness :
    apiPost ⟨false, 500, none⟩ = Except.error (httpErrMsg 500) ∧
    apiPostEmissions ⟨false, 500, none⟩ = [] :=
  (c9_transport_failure ⟨false, 500, none⟩).1 rfl

/-- C10: both numbered-list extractors segment at every digits-period
    occurrence — also inside a field value, as the splitter example shows —
    so each returns at most countNumDot t records. -/
theorem c10_segmentation_bound :
    (∀ t : List Char,
      (parseMultipleEmails t).length ≤ countNumDot t ∧
      (parseCalendarEventsFromText t).length ≤ countNumDot t) ∧
    splitNumDot (("a 12.b").toList) = [("a ").toList, ("b").toList] := by
  constructor
  · intro t
    have hblocks : ((splitNumDot t).drop 1).length = countNumDot t := by
      rw [List.length_drop, splitNumDot_length]
      omega
    constructor
    · rw [parseMultipleEmails_pipeline]
      calc ((((splitNumDot t).drop 1).filter keepBlock).filterMap
            parseEmailFromText).length
          ≤ (((splitNumDot t).drop 1).filter keepBlock).length :=
            List.length_filterMap_le _ _
        _ ≤ ((splitNumDot t).drop 1).length := List.length_filter_le _ _
        _ = countNumDot t := hblocks
    · rw [parseCalendar_pipeline]
      calc (((splitNumDot t).drop 1).filterMap calBlock).length
          ≤ ((splitNumDot t).drop 1).length := List.length_filterMap_le _ _
        _ = countNumDot t := hblocks
  · decide
